import Mathlib

/-!
Verification of the feature-extraction pipeline of `feature_extraction.py`
(reddit-data-mining).

The pipeline ingests a sequence of posts (author, subreddit, body) and a
sequence of labels (author, gender) and produces an aligned triple: a binary
community-membership matrix, a per-author concatenated-text sequence, and the
label sequence.

Embedding conventions:
* A pandas `DataFrame` of posts is a `List Post`; the target table is a
  `List LabelRecord`.  Row order of the lists is the dataset order.
* A missing (NaN) `body` cell is `Option.none`; `astype(str)` turns a NaN
  into the literal string `"nan"` (pandas semantics of casting a missing
  value to text), modelled by `strOfBody`.
* `Series.unique` returns the distinct values in order of first appearance,
  modelled by `uniques`.
* `Series.loc[keys]` raises `KeyError` when a key is absent from the index,
  modelled by `seriesLoc` / `locAll` returning `Option`.
* `DataFrame.groupby` keeps the original row order inside each group, so the
  group of author `a` is `posts.filter (author = a)` (`authorGroup`).
* A Python `dict` built over the groupby keys is an association list over the
  distinct authors; `dict[k]` raises `KeyError` on a missing key, modelled by
  `dictFind` returning `Option`.
* A 1×N sparse row is a `List Nat` of length N holding 0s and 1s; the
  dictionary-of-keys assignment `v[0, idx] = 1` is `List.set idx 1`.
* `scipy.sparse.vstack` raises `ValueError` on an empty block list and
  otherwise stacks the rows, modelled by `vstack` returning `Option`.
* Exceptions escaping `extract_features` are an `Except ExtractError` value.
-/

/-- A row of the post dataset: columns `author`, `subreddit`, `body`.
A missing body cell (pandas NaN) is `none`. -/
structure Post where
  author : String
  subreddit : String
  body : Option String
deriving Repr, DecidableEq

/-- A row of the target dataset: columns `author`, `gender`. -/
structure LabelRecord where
  author : String
  gender : String
deriving Repr, DecidableEq, Inhabited

/-- Distinct values of a list in order of first appearance: the behaviour of
`pandas.Series.unique` on the `subreddit` column. -/
def uniques : List String → List String
  | [] => []
  | c :: cs => c :: (uniques cs).filter (fun d => d ≠ c)

/-- `create_subreddit_idx(data)`: `data["subreddit"].unique()` paired with
`0, 1, 2, …`.  The resulting `pd.Series` maps the i-th distinct subreddit to
integer i, so it is fully described by the list of distinct subreddits in
first-appearance order; the integer assigned to `c` is the position of `c`
in this list. -/
def create_subreddit_idx (posts : List Post) : List String :=
  uniques (posts.map Post.subreddit)

/-- Position of the first occurrence of `c` in `l` (the integer that the
index series assigns to subreddit `c`). -/
def firstPos : List String → String → Nat
  | [], _ => 0
  | d :: ds, c => if d = c then 0 else firstPos ds c + 1

/-- A single `.loc` lookup in the index series: `KeyError` (none) when the
key is absent. -/
def seriesLoc (idx : List String) (c : String) : Option Nat :=
  if c ∈ idx then some (firstPos idx c) else none

/-- `subreddit_idx.loc[user_subreddits]`: the vectorised lookup of all the
author's subreddits; raises (none) as soon as any key is absent. -/
def locAll (idx : List String) : List String → Option (List Nat)
  | [] => some []
  | c :: cs =>
    match seriesLoc idx c with
    | none => none
    | some i =>
      match locAll idx cs with
      | none => none
      | some is => some (i :: is)

/-- The dictionary-of-keys loop `for idx in idxs: v[0, idx] = 1` starting
from the all-zero 1×n row `sparse.dok_array((1, n))`. -/
def membershipVec (n : Nat) (idxs : List Nat) : List Nat :=
  idxs.foldl (fun v i => v.set i 1) (List.replicate n 0)

/-- `extract_subreddits(author_data, subreddit_idx)`: resolve every subreddit
of the author's rows through the index, then set those coordinates to 1 in a
sparse row of length `len(subreddit_idx)`. -/
def extract_subreddits (author_data : List Post) (subreddit_idx : List String) :
    Option (List Nat) :=
  match locAll subreddit_idx (author_data.map Post.subreddit) with
  | none => none
  | some idxs => some (membershipVec subreddit_idx.length idxs)

/-- `astype(str)` on a body cell: a present string is unchanged, a missing
value (NaN) becomes the literal three-character string `"nan"`. -/
def strOfBody : Option String → String
  | none => "nan"
  | some s => s

/-- `extract_text(author_data)`: `" ".join(author_data["body"].astype(str))`. -/
def extract_text (author_data : List Post) : String :=
  String.intercalate " " (author_data.map (fun p => strOfBody p.body))

/-- The rows of author `a`, in original dataset order (what
`groupby("author")` hands to the loop body for key `a`). -/
def authorGroup (posts : List Post) (a : String) : List Post :=
  posts.filter (fun p => p.author = a)

/-- The distinct authors of the dataset (the groupby keys).  `groupby` sorts
the keys, but the built dictionaries are order-insensitive, so the
first-appearance order is used here. -/
def authors (posts : List Post) : List String :=
  uniques (posts.map Post.author)

/-- Membership in a Python dict represented as an association list;
`dict[k]` raises `KeyError` (none) when `k` is absent. -/
def dictFind {β : Type} : List (String × β) → String → Option β
  | [], _ => none
  | (k, v) :: ds, a => if k = a then some v else dictFind ds a

/-- The loop building `subreddits_dict`: one `extract_subreddits` call per
distinct author; a `KeyError` inside any call aborts the build. -/
def buildSdict (posts : List Post) (idx : List String) :
    List String → Option (List (String × List Nat))
  | [] => some []
  | a :: as =>
    match extract_subreddits (authorGroup posts a) idx with
    | none => none
    | some v =>
      match buildSdict posts idx as with
      | none => none
      | some d => some ((a, v) :: d)

/-- The loop building `text_dict`: one `extract_text` call per distinct
author (never fails). -/
def text_dict (posts : List Post) : List (String × String) :=
  (authors posts).map (fun a => (a, extract_text (authorGroup posts a)))

/-- `scipy.sparse.vstack(blocks)`: raises `ValueError` (none) on an empty
block list, otherwise stacks the 1×N rows into a matrix. -/
def vstack (rows : List (List Nat)) : Option (List (List Nat)) :=
  match rows with
  | [] => none
  | _ => some rows

/-- The exceptions that can escape `extract_features`. -/
inductive ExtractError where
  /-- `KeyError` from `subreddits_dict[author]` / `text_dict[author]`:
  a label-table author with no post-derived profile. -/
  | authorNotFound (author : String)
  /-- `KeyError` from `subreddit_idx.loc`: a subreddit of a group is absent
  from the index. -/
  | subredditNotFound
  /-- `ValueError` from `sparse.vstack([])`. -/
  | emptyVstack
deriving Repr, DecidableEq

/-- The comprehension `[subreddits_dict[author] for author in target["author"]]`:
evaluated left to right, the first missing author raises `KeyError`. -/
def lookupRows (sdict : List (String × List Nat)) :
    List LabelRecord → Except ExtractError (List (List Nat))
  | [] => Except.ok []
  | t :: ts =>
    match dictFind sdict t.author with
    | none => Except.error (ExtractError.authorNotFound t.author)
    | some v =>
      match lookupRows sdict ts with
      | Except.error e => Except.error e
      | Except.ok vs => Except.ok (v :: vs)

/-- The comprehension `[text_dict[author] for author in target["author"]]`. -/
def lookupTexts (tdict : List (String × String)) :
    List LabelRecord → Except ExtractError (List String)
  | [] => Except.ok []
  | t :: ts =>
    match dictFind tdict t.author with
    | none => Except.error (ExtractError.authorNotFound t.author)
    | some s =>
      match lookupTexts tdict ts with
      | Except.error e => Except.error e
      | Except.ok ss => Except.ok (s :: ss)

/-- `extract_features(train_data, target)`: build the subreddit index, the
per-author membership and text dictionaries, then assemble
`(X, author_text, y)` in label order.  Each Python exception becomes the
corresponding `Except.error`, in the order the source would raise it. -/
def extract_features (train_data : List Post) (target : List LabelRecord) :
    Except ExtractError (List (List Nat) × List String × List String) :=
  match buildSdict train_data (create_subreddit_idx train_data) (authors train_data) with
  | none => Except.error ExtractError.subredditNotFound
  | some sdict =>
    match lookupRows sdict target with
    | Except.error e => Except.error e
    | Except.ok rows =>
      match vstack rows with
      | none => Except.error ExtractError.emptyVstack
      | some X =>
        match lookupTexts (text_dict train_data) target with
        | Except.error e => Except.error e
        | Except.ok author_text =>
          Except.ok (X, author_text, target.map LabelRecord.gender)

/-- The membership row that `extract_subreddits` produces for author `a` of
`posts` when every lookup succeeds: total form, used to state theorems. -/
def profileVec (posts : List Post) (a : String) : List Nat :=
  membershipVec (create_subreddit_idx posts).length
    (((authorGroup posts a).map Post.subreddit).map
      (firstPos (create_subreddit_idx posts)))

/-- Follows the spec's words, §4.2: the author's text is the bodies of the
author's rows, each cast to text, in original record order, joined with one
ASCII space between consecutive entries, with no trimming or normalization. -/
def specTextConcat : List Post → String
  | [] => ""
  | [p] => strOfBody p.body
  | p :: q :: ps => strOfBody p.body ++ " " ++ specTextConcat (q :: ps)

/-! ### Properties of `uniques` (pandas `Series.unique`) -/

theorem mem_uniques {c : String} : ∀ {l : List String}, c ∈ uniques l ↔ c ∈ l
  | [] => Iff.rfl
  | d :: ds => by
    simp only [uniques, List.mem_cons, List.mem_filter, decide_eq_true_eq,
      mem_uniques (l := ds)]
    by_cases hc : c = d <;> simp [hc]

theorem uniques_nodup : ∀ (l : List String), (uniques l).Nodup
  | [] => List.nodup_nil
  | d :: ds => by
    simp only [uniques, List.nodup_cons]
    refine ⟨fun hmem => ?_, (uniques_nodup ds).filter _⟩
    have := List.of_mem_filter hmem
    simp at this

theorem uniques_sublist : ∀ (l : List String), (uniques l).Sublist l
  | [] => List.Sublist.refl _
  | d :: ds => by
    simpa [uniques] using ((List.filter_sublist _).trans (uniques_sublist ds)).cons₂ d

/-! ### Properties of `firstPos` (the integer the index series assigns) -/

theorem firstPos_cons_self (c : String) (l : List String) :
    firstPos (c :: l) c = 0 := by
  simp [firstPos]

theorem firstPos_cons_ne {d c : String} (l : List String) (h : d ≠ c) :
    firstPos (d :: l) c = firstPos l c + 1 := by
  simp [firstPos, h]

theorem firstPos_lt_length {c : String} :
    ∀ {l : List String}, c ∈ l → firstPos l c < l.length
  | d :: ds, h => by
    by_cases hd : d = c
    · simp [firstPos, hd]
    · have hc : c ∈ ds := by
        rcases List.mem_cons.mp h with h1 | h1
        · exact absurd h1.symm hd
        · exact h1
      have := firstPos_lt_length hc
      simp only [firstPos, hd, if_false, List.length_cons]
      omega

theorem getD_firstPos {c : String} :
    ∀ {l : List String}, c ∈ l → l.getD (firstPos l c) "" = c
  | d :: ds, h => by
    by_cases hd : d = c
    · simp [firstPos, hd]
    · have hc : c ∈ ds := by
        rcases List.mem_cons.mp h with h1 | h1
        · exact absurd h1.symm hd
        · exact h1
      simpa [firstPos, hd] using getD_firstPos hc

theorem firstPos_getD :
    ∀ {l : List String}, l.Nodup → ∀ {j : Nat}, j < l.length →
      firstPos l (l.getD j "") = j
  | d :: ds, nd, 0, _ => by simp [firstPos]
  | d :: ds, nd, j + 1, hj => by
    have hlt : j < ds.length := by simpa using hj
    have hgd : ds.getD j "" = ds[j] := List.getD_eq_getElem ds "" hlt
    have hmem : ds.getD j "" ∈ ds := by
      rw [hgd]; exact List.getElem_mem hlt
    have hne : d ≠ ds.getD j "" := fun h => (List.nodup_cons.mp nd).1 (h ▸ hmem)
    have ih := firstPos_getD (List.nodup_cons.mp nd).2 hlt
    rw [List.getD_cons_succ, firstPos_cons_ne _ hne, ih]

/-! ### Properties of `membershipVec` (the dictionary-of-keys row) -/

theorem foldl_set_length :
    ∀ (idxs : List Nat) (v : List Nat),
      (idxs.foldl (fun w i => w.set i 1) v).length = v.length
  | [], _ => rfl
  | i :: is, v => by
    simpa [List.foldl_cons] using foldl_set_length is (v.set i 1)

theorem length_membershipVec (n : Nat) (idxs : List Nat) :
    (membershipVec n idxs).length = n := by
  simpa [membershipVec] using foldl_set_length idxs (List.replicate n 0)

theorem foldl_set_getD :
    ∀ (idxs : List Nat) (v : List Nat) (j : Nat),
      (idxs.foldl (fun w i => w.set i 1) v).getD j 0 =
        if j ∈ idxs ∧ j < v.length then 1 else v.getD j 0
  | [], v, j => by simp
  | i :: is, v, j => by
    rw [List.foldl_cons, foldl_set_getD is (v.set i 1) j]
    by_cases hj : j < v.length
    · have hset : (v.set i 1).getD j 0 = if i = j then 1 else v.getD j 0 := by
        rw [List.getD_eq_getElem _ _ (by simpa using hj),
          List.getD_eq_getElem _ _ hj, List.getElem_set]
      by_cases hmem : j ∈ is
      · simp [hmem, hj, hset]
      · by_cases hij : i = j
        · simp [hmem, hj, hset, hij]
        · have hji : ¬j = i := fun h => hij h.symm
          simp [hmem, hj, hset, hij, hji]
    · have hout : ∀ w : List Nat, w.length = v.length → w.getD j 0 = 0 := by
        intro w hw
        exact List.getD_eq_default _ _ (by omega)
      rw [hout (v.set i 1) (by simp), hout v rfl]
      simp [hj]

theorem getD_membershipVec {n j : Nat} (idxs : List Nat) (hj : j < n) :
    (membershipVec n idxs).getD j 0 = if j ∈ idxs then 1 else 0 := by
  rw [membershipVec, foldl_set_getD]
  by_cases hmem : j ∈ idxs
  · simp [hmem, hj]
  · have hrep : (List.replicate n 0).getD j 0 = 0 := by
      rw [List.getD_eq_getElem _ _ (by simpa using hj)]
      simp
    simp [hmem, hrep]

/-! ### Properties of `locAll` and `extract_subreddits` -/

theorem locAll_eq_map {idx : List String} :
    ∀ {subs : List String}, (∀ c ∈ subs, c ∈ idx) →
      locAll idx subs = some (subs.map (firstPos idx))
  | [], _ => rfl
  | c :: cs, h => by
    have hc : c ∈ idx := h c (List.mem_cons_self c cs)
    have ih := locAll_eq_map (fun d hd => h d (List.mem_cons_of_mem c hd))
    simp [locAll, seriesLoc, hc, ih]

theorem locAll_none {idx : List String} :
    ∀ {subs : List String}, (∃ c ∈ subs, c ∉ idx) → locAll idx subs = none
  | c :: cs, h => by
    by_cases hc : c ∈ idx
    · obtain ⟨d, hd, hnd⟩ := h
      have hd' : d ∈ cs := by
        rcases List.mem_cons.mp hd with h1 | h1
        · exact absurd (h1 ▸ hc) hnd
        · exact h1
      have ih := locAll_none ⟨d, hd', hnd⟩
      simp [locAll, seriesLoc, hc, ih]
    · simp [locAll, seriesLoc, hc]

theorem extract_subreddits_ok {g : List Post} {idx : List String}
    (h : ∀ c ∈ g.map Post.subreddit, c ∈ idx) :
    extract_subreddits g idx =
      some (membershipVec idx.length ((g.map Post.subreddit).map (firstPos idx))) := by
  simp [extract_subreddits, locAll_eq_map h]

theorem extract_subreddits_none {g : List Post} {idx : List String}
    (h : ∃ c ∈ g.map Post.subreddit, c ∉ idx) :
    extract_subreddits g idx = none := by
  simp [extract_subreddits, locAll_none h]

theorem authorGroup_sublist (posts : List Post) (a : String) :
    (authorGroup posts a).Sublist posts :=
  List.filter_sublist posts

theorem mem_authorGroup {posts : List Post} {a : String} {p : Post} :
    p ∈ authorGroup posts a ↔ p ∈ posts ∧ p.author = a := by
  simp [authorGroup, List.mem_filter]

theorem authorGroup_subreddit_mem {posts : List Post} {a : String} {c : String}
    (h : c ∈ (authorGroup posts a).map Post.subreddit) :
    c ∈ create_subreddit_idx posts := by
  rw [create_subreddit_idx, mem_uniques]
  obtain ⟨p, hp, rfl⟩ := List.mem_map.mp h
  exact List.mem_map.mpr ⟨p, (mem_authorGroup.mp hp).1, rfl⟩

theorem extract_subreddits_group (posts : List Post) (a : String) :
    extract_subreddits (authorGroup posts a) (create_subreddit_idx posts) =
      some (profileVec posts a) :=
  extract_subreddits_ok (fun _ hc => authorGroup_subreddit_mem hc)

/-! ### Properties of the dictionaries -/

theorem dictFind_map {β : Type} (f : String → β) :
    ∀ (l : List String) (x : String),
      dictFind (l.map (fun a => (a, f a))) x =
        if x ∈ l then some (f x) else none
  | [], _ => rfl
  | a :: as, x => by
    by_cases hax : a = x
    · simp [dictFind, hax]
    · have hxa : ¬(x = a) := fun h => hax h.symm
      simp [dictFind, hax, hxa, dictFind_map f as x]

theorem buildSdict_eq (posts : List Post) :
    ∀ (l : List String),
      buildSdict posts (create_subreddit_idx posts) l =
        some (l.map (fun a => (a, profileVec posts a)))
  | [] => rfl
  | a :: as => by
    simp [buildSdict, extract_subreddits_group posts a, buildSdict_eq posts as]

theorem sdict_find (posts : List Post) (x : String) :
    dictFind ((authors posts).map (fun a => (a, profileVec posts a))) x =
      if x ∈ posts.map Post.author then some (profileVec posts x) else none := by
  rw [dictFind_map]
  simp only [authors, mem_uniques]

theorem text_dict_find (posts : List Post) (x : String) :
    dictFind (text_dict posts) x =
      if x ∈ posts.map Post.author then
        some (extract_text (authorGroup posts x))
      else none := by
  rw [text_dict, dictFind_map]
  simp only [authors, mem_uniques]

/-! ### Properties of the label-order comprehensions -/

theorem lookupRows_ok {sdict : List (String × List Nat)} {g : LabelRecord → List Nat} :
    ∀ {target : List LabelRecord},
      (∀ t ∈ target, dictFind sdict t.author = some (g t)) →
      lookupRows sdict target = Except.ok (target.map g)
  | [], _ => rfl
  | t :: ts, h => by
    have ht := h t (List.mem_cons_self t ts)
    have ih := lookupRows_ok (fun r hr => h r (List.mem_cons_of_mem t hr))
    simp [lookupRows, ht, ih]

theorem lookupRows_err {sdict : List (String × List Nat)} :
    ∀ {target : List LabelRecord},
      (∃ t ∈ target, dictFind sdict t.author = none) →
      ∃ a, lookupRows sdict target = Except.error (ExtractError.authorNotFound a) ∧
        dictFind sdict a = none ∧ ∃ t ∈ target, t.author = a
  | t :: ts, h => by
    cases hfind : dictFind sdict t.author with
    | none =>
      exact ⟨t.author, by simp [lookupRows, hfind], hfind,
        t, List.mem_cons_self t ts, rfl⟩
    | some v =>
      obtain ⟨r, hr, hnone⟩ := h
      have hr' : r ∈ ts := by
        rcases List.mem_cons.mp hr with h1 | h1
        · rw [h1, hfind] at hnone; exact absurd hnone (by simp)
        · exact h1
      obtain ⟨a, heq, hna, r', hr'', ha⟩ := lookupRows_err ⟨r, hr', hnone⟩
      exact ⟨a, by simp [lookupRows, hfind, heq], hna,
        r', List.mem_cons_of_mem t hr'', ha⟩

theorem lookupTexts_ok {tdict : List (String × String)} {g : LabelRecord → String} :
    ∀ {target : List LabelRecord},
      (∀ t ∈ target, dictFind tdict t.author = some (g t)) →
      lookupTexts tdict target = Except.ok (target.map g)
  | [], _ => rfl
  | t :: ts, h => by
    have ht := h t (List.mem_cons_self t ts)
    have ih := lookupTexts_ok (fun r hr => h r (List.mem_cons_of_mem t hr))
    simp [lookupTexts, ht, ih]

/-! ### Characterization of `extract_features` -/

theorem extract_features_ok {posts : List Post} {target : List LabelRecord}
    (hall : ∀ t ∈ target, t.author ∈ posts.map Post.author)
    (hne : target ≠ []) :
    extract_features posts target =
      Except.ok
        (target.map (fun t => profileVec posts t.author),
         target.map (fun t => extract_text (authorGroup posts t.author)),
         target.map LabelRecord.gender) := by
  have hrows : lookupRows ((authors posts).map (fun a => (a, profileVec posts a)))
      target = Except.ok (target.map (fun t => profileVec posts t.author)) :=
    lookupRows_ok (fun t ht => by rw [sdict_find]; simp [hall t ht])
  have htexts : lookupTexts (text_dict posts) target =
      Except.ok (target.map (fun t => extract_text (authorGroup posts t.author))) :=
    lookupTexts_ok (fun t ht => by rw [text_dict_find]; simp [hall t ht])
  have hmapne : target.map (fun t => profileVec posts t.author) ≠ [] := by
    simpa using hne
  rw [extract_features, buildSdict_eq posts (authors posts)]
  simp only [hrows, htexts]
  cases hm : target.map (fun t => profileVec posts t.author) with
  | nil => exact absurd hm hmapne
  | cons r rs => simp [vstack, ← hm]

theorem extract_features_err_author {posts : List Post} {target : List LabelRecord}
    (h : ∃ t ∈ target, t.author ∉ posts.map Post.author) :
    ∃ a, extract_features posts target =
        Except.error (ExtractError.authorNotFound a) ∧
      a ∉ posts.map Post.author ∧ ∃ t ∈ target, t.author = a := by
  obtain ⟨t, ht, hna⟩ := h
  have hnone : dictFind ((authors posts).map (fun a => (a, profileVec posts a)))
      t.author = none := by
    rw [sdict_find]; simp [hna]
  obtain ⟨a, heq, hfa, r, hr, hra⟩ := lookupRows_err ⟨t, ht, hnone⟩
  refine ⟨a, ?_, ?_, r, hr, hra⟩
  · rw [extract_features, buildSdict_eq posts (authors posts)]
    simp [heq]
  · intro hmem
    rw [sdict_find] at hfa
    simp [hmem] at hfa

theorem extract_features_empty_target (posts : List Post) :
    extract_features posts [] = Except.error ExtractError.emptyVstack := by
  rw [extract_features, buildSdict_eq posts (authors posts)]
  simp [lookupRows, vstack]

theorem extract_features_ok_inv {posts : List Post} {target : List LabelRecord}
    {X : List (List Nat)} {T : List String} {Y : List String}
    (h : extract_features posts target = Except.ok (X, T, Y)) :
    (∀ t ∈ target, t.author ∈ posts.map Post.author) ∧ target ≠ [] ∧
      X = target.map (fun t => profileVec posts t.author) ∧
      T = target.map (fun t => extract_text (authorGroup posts t.author)) ∧
      Y = target.map LabelRecord.gender := by
  have hall : ∀ t ∈ target, t.author ∈ posts.map Post.author := by
    intro t ht
    by_contra hna
    obtain ⟨a, heq, -, -⟩ := extract_features_err_author ⟨t, ht, hna⟩
    rw [heq] at h
    exact Except.noConfusion h
  have hne : target ≠ [] := by
    intro hnil
    rw [hnil, extract_features_empty_target posts] at h
    exact Except.noConfusion h
  have := extract_features_ok hall hne
  rw [this] at h
  obtain ⟨h1, h2, h3⟩ := Prod.mk.injEq .. ▸ (Except.ok.injEq .. ▸ h)
  exact ⟨hall, hne, by simp_all⟩

/-! ### Properties of `extract_text` -/

theorem intercalateGo_cons (s : String) :
    ∀ (l : List String) (a b : String),
      String.intercalate.go a s (b :: l) = a ++ s ++ String.intercalate.go b s l
  | [], _, _ => rfl
  | c :: cs, a, b => by
    have hL : String.intercalate.go a s (b :: c :: cs) =
        String.intercalate.go (a ++ s ++ b) s (c :: cs) := rfl
    rw [hL, intercalateGo_cons s cs (a ++ s ++ b) c, intercalateGo_cons s cs b c]
    simp [String.append_assoc]

theorem extract_text_cons_cons (p q : Post) (ps : List Post) :
    extract_text (p :: q :: ps) = strOfBody p.body ++ " " ++ extract_text (q :: ps) := by
  have h1 : extract_text (p :: q :: ps) =
      String.intercalate.go (strOfBody p.body) " "
        (strOfBody q.body :: ps.map (fun r => strOfBody r.body)) := rfl
  have h2 : extract_text (q :: ps) =
      String.intercalate.go (strOfBody q.body) " "
        (ps.map (fun r => strOfBody r.body)) := rfl
  rw [h1, intercalateGo_cons, h2]

theorem extract_text_eq_spec : ∀ (g : List Post), extract_text g = specTextConcat g
  | [] => rfl
  | [_] => rfl
  | p :: q :: ps => by
    rw [extract_text_cons_cons, specTextConcat, extract_text_eq_spec (q :: ps)]

/-! ### First-appearance order of the index -/

theorem uniques_pairwise_firstPos :
    ∀ (l : List String), (uniques l).Pairwise (fun a b => firstPos l a < firstPos l b)
  | [] => List.Pairwise.nil
  | d :: ds => by
    rw [uniques, List.pairwise_cons]
    constructor
    · intro b hb
      have hbne : b ≠ d := by simpa using List.of_mem_filter hb
      rw [firstPos_cons_self, firstPos_cons_ne _ (fun h => hbne h.symm)]
      omega
    · have ih := uniques_pairwise_firstPos ds
      have hpw := List.Pairwise.sublist
        (List.filter_sublist (p := fun e => decide (e ≠ d)) (uniques ds)) ih
      refine hpw.imp_of_mem ?_
      intro a b ha hb hab
      have hane : a ≠ d := by simpa using List.of_mem_filter ha
      have hbne : b ≠ d := by simpa using List.of_mem_filter hb
      rw [firstPos_cons_ne _ (fun h => hane h.symm),
        firstPos_cons_ne _ (fun h => hbne h.symm)]
      omega

theorem get_firstPos {c : String} {l : List String} (h : c ∈ l) :
    l.get ⟨firstPos l c, firstPos_lt_length h⟩ = c := by
  have := getD_firstPos h
  rwa [List.getD_eq_getElem _ _ (firstPos_lt_length h)] at this

theorem firstPos_inj {l : List String} {c c' : String}
    (hc : c ∈ l) (hc' : c' ∈ l) (h : firstPos l c = firstPos l c') : c = c' := by
  have h1 := get_firstPos hc
  have h2 := get_firstPos hc'
  rw [← h1, ← h2]
  congr 1
  exact Fin.ext h

theorem uniques_firstPos_lt_of {l : List String} {c c' : String}
    (hc : c ∈ l) (hc' : c' ∈ l)
    (h : firstPos (uniques l) c < firstPos (uniques l) c') :
    firstPos l c < firstPos l c' := by
  have hcu : c ∈ uniques l := mem_uniques.mpr hc
  have hc'u : c' ∈ uniques l := mem_uniques.mpr hc'
  have hpw := List.pairwise_iff_get.mp (uniques_pairwise_firstPos l)
    ⟨_, firstPos_lt_length hcu⟩ ⟨_, firstPos_lt_length hc'u⟩ h
  rwa [get_firstPos hcu, get_firstPos hc'u] at hpw

theorem uniques_firstPos_lt_iff {l : List String} {c c' : String}
    (hc : c ∈ l) (hc' : c' ∈ l) :
    firstPos (uniques l) c < firstPos (uniques l) c' ↔ firstPos l c < firstPos l c' := by
  constructor
  · exact uniques_firstPos_lt_of hc hc'
  · intro h
    rcases lt_trichotomy (firstPos (uniques l) c) (firstPos (uniques l) c') with
      hlt | heq | hgt
    · exact hlt
    · exact absurd (firstPos_inj (mem_uniques.mpr hc) (mem_uniques.mpr hc') heq)
        (fun he => by rw [he] at h; omega)
    · have := uniques_firstPos_lt_of hc' hc hgt
      omega

theorem uniques_toFinset (l : List String) : (uniques l).toFinset = l.toFinset := by
  ext c
  simp [mem_uniques]

theorem uniques_length (l : List String) : (uniques l).length = l.toFinset.card := by
  rw [← uniques_toFinset, List.toFinset_card_of_nodup (uniques_nodup l)]

/-! ### Small bridge lemmas -/

theorem getD_map {α β : Type} [Inhabited α] (f : α → β) (l : List α) {i : Nat}
    (hi : i < l.length) (d : β) :
    (l.map f).getD i d = f (l.getD i default) := by
  rw [List.getD_eq_getElem _ _ (by simpa using hi), List.getElem_map,
    List.getD_eq_getElem _ _ hi]

theorem membershipVec_eq_of_mem_iff {n : Nat} {idxs idxs' : List Nat}
    (h : ∀ j, j ∈ idxs ↔ j ∈ idxs') :
    membershipVec n idxs = membershipVec n idxs' := by
  apply List.ext_getElem (by simp [length_membershipVec])
  intro i h1 h2
  have hi : i < n := by simpa [length_membershipVec] using h1
  rw [← List.getD_eq_getElem _ 0 h1, ← List.getD_eq_getElem _ 0 h2,
    getD_membershipVec _ hi, getD_membershipVec _ hi]
  simp [h i]

theorem mem_map_firstPos_iff {idx : List String} (hnd : idx.Nodup) {subs : List String}
    (hsubs : ∀ c ∈ subs, c ∈ idx) {j : Nat} (hj : j < idx.length) :
    j ∈ subs.map (firstPos idx) ↔ idx.getD j "" ∈ subs := by
  constructor
  · intro hmem
    obtain ⟨c, hc, rfl⟩ := List.mem_map.mp hmem
    rw [getD_firstPos (hsubs c hc)]
    exact hc
  · intro hmem
    exact List.mem_map.mpr ⟨idx.getD j "", hmem, firstPos_getD hnd hj⟩

/-! ### Concrete data used to instantiate the theorems: the end-to-end
scenario of the specification. -/

def ExPosts : List Post :=
  [⟨"a1", "sub1", some "hi"⟩, ⟨"a1", "sub2", some "there"⟩, ⟨"a2", "sub1", some "yo"⟩]

def ExTarget : List LabelRecord := [⟨"a1", "F"⟩, ⟨"a2", "M"⟩]

/-! ### The claims -/

/-- C1 (counterexample): the claim quantifies over every label sequence whose
authors all appear in the post dataset, which includes the empty label
sequence (vacuously).  There the code does not return a 0-row matrix:
`sparse.vstack` of the empty row list raises, so `extract_features` fails
with `emptyVstack` instead of returning a `FeatureMatrix`. -/
theorem claim_C1_counterexample :
    extract_features [Post.mk "a1" "sub1" (some "hi")] [] =
      Except.error ExtractError.emptyVstack := rfl

/-- C1 (amended): for every post dataset and every NON-EMPTY label sequence
whose authors all appear in the post dataset, `extract_features` returns
a matrix with exactly one row per label record, and at every position `i`
the matrix row is the membership vector of the i-th label author, the text
entry is that same author's concatenated text, and the label entry is the
i-th label value — all three outputs describe the identical author. -/
theorem claim_C1 (posts : List Post) (target : List LabelRecord)
    (hall : ∀ t ∈ target, t.author ∈ posts.map Post.author)
    (hne : target ≠ []) :
    ∃ X T Y, extract_features posts target = Except.ok (X, T, Y) ∧
      X.length = target.length ∧ T.length = target.length ∧
      Y.length = target.length ∧
      ∀ i, i < target.length →
        X.getD i [] = profileVec posts (target.getD i default).author ∧
        T.getD i "" = extract_text (authorGroup posts (target.getD i default).author) ∧
        Y.getD i "" = (target.getD i default).gender := by
  refine ⟨_, _, _, extract_features_ok hall hne, by simp, by simp, by simp, ?_⟩
  intro i hi
  refine ⟨getD_map _ _ hi _, getD_map _ _ hi _, getD_map _ _ hi _⟩

/-- C1 (witness): the end-to-end scenario of the specification. -/
theorem claim_C1_witness :
    ∃ X T Y, extract_features ExPosts ExTarget = Except.ok (X, T, Y) ∧
      X.length = ExTarget.length ∧ T.length = ExTarget.length ∧
      Y.length = ExTarget.length ∧
      ∀ i, i < ExTarget.length →
        X.getD i [] = profileVec ExPosts (ExTarget.getD i default).author ∧
        T.getD i "" = extract_text (authorGroup ExPosts (ExTarget.getD i default).author) ∧
        Y.getD i "" = (ExTarget.getD i default).gender :=
  claim_C1 ExPosts ExTarget (by decide) (by decide)

/-- C2: the vector built for an author of the dataset is defined (every
lookup succeeds), has the length of the community index, is binary, holds a
1 at position `j` exactly when the community indexed `j` occurs among the
author's posts, and depends only on the SET of communities the author posted
in — posting in a community several times yields the very same vector as
posting once. -/
theorem claim_C2 (posts : List Post) (a : String) :
    ∃ v, extract_subreddits (authorGroup posts a) (create_subreddit_idx posts) =
        some v ∧
      v.length = (create_subreddit_idx posts).length ∧
      (∀ j, j < (create_subreddit_idx posts).length →
        (v.getD j 0 = 1 ↔
          (create_subreddit_idx posts).getD j "" ∈
            (authorGroup posts a).map Post.subreddit) ∧
        (v.getD j 0 = 0 ∨ v.getD j 0 = 1)) ∧
      ∀ g' : List Post,
        (∀ c, c ∈ g'.map Post.subreddit ↔
          c ∈ (authorGroup posts a).map Post.subreddit) →
        extract_subreddits g' (create_subreddit_idx posts) = some v := by
  have hnd : (create_subreddit_idx posts).Nodup := uniques_nodup _
  have hsubs : ∀ c ∈ (authorGroup posts a).map Post.subreddit,
      c ∈ create_subreddit_idx posts := fun _ hc => authorGroup_subreddit_mem hc
  refine ⟨profileVec posts a, extract_subreddits_group posts a,
    length_membershipVec _ _, ?_, ?_⟩
  · intro j hj
    rw [profileVec, getD_membershipVec _ hj]
    have hiff := mem_map_firstPos_iff hnd hsubs hj
    by_cases hmem : j ∈ ((authorGroup posts a).map Post.subreddit).map
        (firstPos (create_subreddit_idx posts))
    · rw [if_pos hmem]
      exact ⟨⟨fun _ => hiff.mp hmem, fun _ => rfl⟩, Or.inr rfl⟩
    · rw [if_neg hmem]
      exact ⟨⟨fun h0 => absurd h0 (by decide),
        fun hg => absurd (hiff.mpr hg) hmem⟩, Or.inl rfl⟩
  · intro g' hg'
    have hsubs' : ∀ c ∈ g'.map Post.subreddit, c ∈ create_subreddit_idx posts :=
      fun c hc => hsubs c ((hg' c).mp hc)
    rw [extract_subreddits_ok hsubs', profileVec]
    congr 1
    apply membershipVec_eq_of_mem_iff
    intro j
    constructor
    · intro hj
      obtain ⟨c, hc, rfl⟩ := List.mem_map.mp hj
      exact List.mem_map.mpr ⟨c, (hg' c).mp hc, rfl⟩
    · intro hj
      obtain ⟨c, hc, rfl⟩ := List.mem_map.mp hj
      exact List.mem_map.mpr ⟨c, (hg' c).mpr hc, rfl⟩

/-- C2 (witness): instantiation at the specification's scenario, author
`a1`. -/
theorem claim_C2_witness :
    ∃ v, extract_subreddits (authorGroup ExPosts "a1") (create_subreddit_idx ExPosts) =
        some v ∧
      v.length = (create_subreddit_idx ExPosts).length ∧
      (∀ j, j < (create_subreddit_idx ExPosts).length →
        (v.getD j 0 = 1 ↔
          (create_subreddit_idx ExPosts).getD j "" ∈
            (authorGroup ExPosts "a1").map Post.subreddit) ∧
        (v.getD j 0 = 0 ∨ v.getD j 0 = 1)) ∧
      ∀ g' : List Post,
        (∀ c, c ∈ g'.map Post.subreddit ↔
          c ∈ (authorGroup ExPosts "a1").map Post.subreddit) →
        extract_subreddits g' (create_subreddit_idx ExPosts) = some v :=
  claim_C2 ExPosts "a1"

/-- C3: for every author group, the extracted text equals the spec-side
concatenation — bodies cast to text in original record order, joined with
exactly one ASCII space, no trimming — and the spec's concrete example
holds: bodies `"hi"`, `"there"` in dataset order give exactly
`"hi there"`. -/
theorem claim_C3 :
    (∀ g : List Post, extract_text g = specTextConcat g) ∧
    extract_text [Post.mk "u" "s" (some "hi"), Post.mk "u" "s" (some "there")] =
      "hi there" :=
  ⟨extract_text_eq_spec, rfl⟩

/-- C4: the community index has one entry per distinct community of the
dataset, its integers are exactly the dense range `[0, N)` — each member's
integer is below `N`, distinct members get distinct integers, every value
below `N` is hit — and the empty dataset yields the empty index without
error. -/
theorem claim_C4 (posts : List Post) :
    (create_subreddit_idx posts).length = (posts.map Post.subreddit).toFinset.card ∧
    (∀ c, c ∈ create_subreddit_idx posts ↔ c ∈ posts.map Post.subreddit) ∧
    (∀ c ∈ create_subreddit_idx posts,
      firstPos (create_subreddit_idx posts) c < (create_subreddit_idx posts).length) ∧
    (∀ c ∈ create_subreddit_idx posts, ∀ c' ∈ create_subreddit_idx posts,
      firstPos (create_subreddit_idx posts) c =
        firstPos (create_subreddit_idx posts) c' → c = c') ∧
    (∀ k, k < (create_subreddit_idx posts).length →
      ∃ c ∈ create_subreddit_idx posts,
        firstPos (create_subreddit_idx posts) c = k) ∧
    create_subreddit_idx [] = [] := by
  refine ⟨uniques_length _, fun c => mem_uniques,
    fun c hc => firstPos_lt_length hc,
    fun c hc c' hc' h => firstPos_inj hc hc' h, ?_, rfl⟩
  intro k hk
  have hmem : (create_subreddit_idx posts).getD k "" ∈ create_subreddit_idx posts := by
    rw [List.getD_eq_getElem _ _ hk]
    exact List.getElem_mem hk
  exact ⟨(create_subreddit_idx posts).getD k "", hmem,
    firstPos_getD (uniques_nodup _) hk⟩

/-- C4 (witness): instantiation at the specification's scenario. -/
theorem claim_C4_witness :
    (create_subreddit_idx ExPosts).length = (ExPosts.map Post.subreddit).toFinset.card ∧
    (∀ c, c ∈ create_subreddit_idx ExPosts ↔ c ∈ ExPosts.map Post.subreddit) ∧
    (∀ c ∈ create_subreddit_idx ExPosts,
      firstPos (create_subreddit_idx ExPosts) c < (create_subreddit_idx ExPosts).length) ∧
    (∀ c ∈ create_subreddit_idx ExPosts, ∀ c' ∈ create_subreddit_idx ExPosts,
      firstPos (create_subreddit_idx ExPosts) c =
        firstPos (create_subreddit_idx ExPosts) c' → c = c') ∧
    (∀ k, k < (create_subreddit_idx ExPosts).length →
      ∃ c ∈ create_subreddit_idx ExPosts,
        firstPos (create_subreddit_idx ExPosts) c = k) ∧
    create_subreddit_idx [] = [] :=
  claim_C4 ExPosts

/-- C5: when some label record's author never appears in the post dataset,
`extract_features` fails with an `authorNotFound` condition naming such an
absent author, and produces no output at all — in particular no truncated
or defaulted success value. -/
theorem claim_C5 (posts : List Post) (target : List LabelRecord)
    (h : ∃ t ∈ target, t.author ∉ posts.map Post.author) :
    ∃ a, extract_features posts target =
        Except.error (ExtractError.authorNotFound a) ∧
      a ∉ posts.map Post.author ∧ (∃ t ∈ target, t.author = a) ∧
      ∀ out, extract_features posts target ≠ Except.ok out := by
  obtain ⟨a, heq, hna, hta⟩ := extract_features_err_author h
  refine ⟨a, heq, hna, hta, fun out hok => ?_⟩
  rw [heq] at hok
  exact Except.noConfusion hok

/-- C5 (witness): a label for author `a2` against a dataset whose only
author is `a1`. -/
theorem claim_C5_witness :
    ∃ a, extract_features [Post.mk "a1" "sub1" (some "hi")] [LabelRecord.mk "a2" "F"] =
        Except.error (ExtractError.authorNotFound a) ∧
      a ∉ [Post.mk "a1" "sub1" (some "hi")].map Post.author ∧
      (∃ t ∈ [LabelRecord.mk "a2" "F"], t.author = a) ∧
      ∀ out, extract_features [Post.mk "a1" "sub1" (some "hi")] [LabelRecord.mk "a2" "F"] ≠
        Except.ok out :=
  claim_C5 [Post.mk "a1" "sub1" (some "hi")] [LabelRecord.mk "a2" "F"]
    ⟨LabelRecord.mk "a2" "F", by decide, by decide⟩

/-- C6 (counterexample): on the empty post sequence and empty label
sequence the pipeline does not complete: `sparse.vstack` of the empty row
list raises, so `extract_features` returns the `emptyVstack` error instead
of an empty matrix. -/
theorem claim_C6_counterexample :
    extract_features ([] : List Post) ([] : List LabelRecord) =
      Except.error ExtractError.emptyVstack := rfl

/-- C6 (amended): on empty inputs the community index is indeed built empty
(size 0) and the per-author stage produces no profiles, but the pipeline
then fails at the matrix-stacking step with the `emptyVstack` error rather
than completing with a 0-row matrix. -/
theorem claim_C6 :
    create_subreddit_idx [] = [] ∧ authors [] = [] ∧ text_dict [] = [] ∧
    buildSdict [] (create_subreddit_idx []) (authors []) = some [] ∧
    extract_features ([] : List Post) ([] : List LabelRecord) =
      Except.error ExtractError.emptyVstack ∧
    extract_features ([] : List Post) ([] : List LabelRecord) ≠
      Except.ok ([], [], []) :=
  ⟨rfl, rfl, rfl, rfl, rfl, fun h => Except.noConfusion h⟩

/-- C7: when a run of the pipeline succeeds, running it again on a permuted
label sequence succeeds and returns exactly the same permutation of all
three outputs — matrix rows, text sequence, and label sequence move
together, with no independent reordering. -/
theorem claim_C7 (posts : List Post) (target : List LabelRecord) (σ : List Nat)
    (hσ : σ.Perm (List.range target.length))
    (X : List (List Nat)) (T Y : List String)
    (h : extract_features posts target = Except.ok (X, T, Y)) :
    extract_features posts (σ.map (fun i => target.getD i default)) =
      Except.ok (σ.map (fun i => X.getD i []),
        σ.map (fun i => T.getD i ""), σ.map (fun i => Y.getD i "")) := by
  obtain ⟨hall, hne, hX, hT, hY⟩ := extract_features_ok_inv h
  have hmem : ∀ i ∈ σ, i < target.length := fun i hi =>
    List.mem_range.mp (hσ.mem_iff.mp hi)
  have hall2 : ∀ t ∈ σ.map (fun i => target.getD i default),
      t.author ∈ posts.map Post.author := by
    intro t ht
    obtain ⟨i, hi, rfl⟩ := List.mem_map.mp ht
    have : target.getD i default ∈ target := by
      rw [List.getD_eq_getElem _ _ (hmem i hi)]
      exact List.getElem_mem _
    exact hall _ this
  have hσne : σ ≠ [] := by
    intro hnil
    have hlen := hσ.length_eq
    rw [hnil] at hlen
    simp only [List.length_nil, List.length_range] at hlen
    exact hne (List.length_eq_zero.mp hlen.symm)
  have hne2 : σ.map (fun i => target.getD i default) ≠ [] := by
    simpa using hσne
  rw [extract_features_ok hall2 hne2, List.map_map, List.map_map, List.map_map]
  have e1 : σ.map ((fun t => profileVec posts t.author) ∘
      (fun i => target.getD i default)) = σ.map (fun i => X.getD i []) := by
    refine List.map_congr_left ?_
    intro i hi
    rw [hX, getD_map _ _ (hmem i hi)]
    rfl
  have e2 : σ.map ((fun t => extract_text (authorGroup posts t.author)) ∘
      (fun i => target.getD i default)) = σ.map (fun i => T.getD i "") := by
    refine List.map_congr_left ?_
    intro i hi
    rw [hT, getD_map _ _ (hmem i hi)]
    rfl
  have e3 : σ.map (LabelRecord.gender ∘ (fun i => target.getD i default)) =
      σ.map (fun i => Y.getD i "") := by
    refine List.map_congr_left ?_
    intro i hi
    rw [hY, getD_map _ _ (hmem i hi)]
    rfl
  rw [e1, e2, e3]

/-- C7 (witness): swapping the two label rows of the specification's
scenario swaps the matrix rows, the texts and the labels identically. -/
theorem claim_C7_witness :
    extract_features ExPosts ([1, 0].map (fun i => ExTarget.getD i default)) =
      Except.ok
        ([1, 0].map (fun i => ([[1, 1], [1, 0]] : List (List Nat)).getD i []),
         [1, 0].map (fun i => (["hi there", "yo"] : List String).getD i ""),
         [1, 0].map (fun i => (["F", "M"] : List String).getD i "")) :=
  claim_C7 ExPosts ExTarget [1, 0] (by decide)
    [[1, 1], [1, 0]] ["hi there", "yo"] ["F", "M"] rfl

/-- C8: resolving a community absent from the index fails (no silent
default position), and under the precondition that the index was built from
the same dataset the author group came from, this branch is unreachable:
every group resolves successfully. -/
theorem claim_C8 :
    (∀ (g : List Post) (idx : List String),
      (∃ p ∈ g, p.subreddit ∉ idx) → extract_subreddits g idx = none) ∧
    ∀ (posts : List Post) (a : String),
      ∃ v, extract_subreddits (authorGroup posts a) (create_subreddit_idx posts) =
        some v := by
  constructor
  · rintro g idx ⟨p, hp, hnp⟩
    exact extract_subreddits_none ⟨p.subreddit, List.mem_map.mpr ⟨p, hp, rfl⟩, hnp⟩
  · intro posts a
    exact ⟨profileVec posts a, extract_subreddits_group posts a⟩

/-- C8 (witness): a group naming a community missing from an empty index
fails, while the group of author `a1` against the index built from the same
dataset resolves. -/
theorem claim_C8_witness :
    extract_subreddits [Post.mk "u" "s1" none] [] = none ∧
    ∃ v, extract_subreddits (authorGroup ExPosts "a1") (create_subreddit_idx ExPosts) =
      some v :=
  ⟨claim_C8.1 [Post.mk "u" "s1" none] []
      ⟨Post.mk "u" "s1" none, by decide, by decide⟩,
   claim_C8.2 ExPosts "a1"⟩

/-- C9: a missing body is cast to exactly the three-character string
`"nan"`, which is never empty, is placed at the post's own position in
dataset order (replacing the missing body behaves exactly like the literal
body `"nan"`), and missing bodies are never skipped: one text entry per
post, always. -/
theorem claim_C9 :
    strOfBody none = "nan" ∧ (strOfBody none).length = 3 ∧ strOfBody none ≠ "" ∧
    (∀ (g1 g2 : List Post) (a c : String),
      extract_text (g1 ++ Post.mk a c none :: g2) =
        extract_text (g1 ++ Post.mk a c (some "nan") :: g2)) ∧
    ∀ g : List Post, (g.map (fun p => strOfBody p.body)).length = g.length := by
  refine ⟨rfl, rfl, by decide, ?_, fun g => List.length_map g _⟩
  intro g1 g2 a c
  simp [extract_text, strOfBody]

/-- C10: the community index lists the distinct communities in
first-appearance order: it is a duplicate-free subsequence of the dataset's
community column containing exactly its values, and one community's index
is below another's exactly when its first occurrence in the dataset comes
first. -/
theorem claim_C10 (posts : List Post) :
    (create_subreddit_idx posts).Nodup ∧
    (create_subreddit_idx posts).Sublist (posts.map Post.subreddit) ∧
    (∀ c, c ∈ create_subreddit_idx posts ↔ c ∈ posts.map Post.subreddit) ∧
    ∀ c ∈ posts.map Post.subreddit, ∀ c' ∈ posts.map Post.subreddit,
      (firstPos (create_subreddit_idx posts) c <
          firstPos (create_subreddit_idx posts) c' ↔
        firstPos (posts.map Post.subreddit) c <
          firstPos (posts.map Post.subreddit) c') :=
  ⟨uniques_nodup _, uniques_sublist _, fun _ => mem_uniques,
   fun _ hc _ hc' => uniques_firstPos_lt_iff hc hc'⟩

/-- C10 (witness): instantiation at the specification's scenario. -/
theorem claim_C10_witness :
    (create_subreddit_idx ExPosts).Nodup ∧
    (create_subreddit_idx ExPosts).Sublist (ExPosts.map Post.subreddit) ∧
    (∀ c, c ∈ create_subreddit_idx ExPosts ↔ c ∈ ExPosts.map Post.subreddit) ∧
    ∀ c ∈ ExPosts.map Post.subreddit, ∀ c' ∈ ExPosts.map Post.subreddit,
      (firstPos (create_subreddit_idx ExPosts) c <
          firstPos (create_subreddit_idx ExPosts) c' ↔
        firstPos (ExPosts.map Post.subreddit) c <
          firstPos (ExPosts.map Post.subreddit) c') :=
  claim_C10 ExPosts
